import Mathlib

/-!
Verification of the commit-linearization algorithm and the temporary-ref
lifecycle helper of the `shared-github-internals` git module.

The definitions below are a shallow embedding of `src/git.ts`:

* `Commit` models one item of the pull-request commit listing (its `sha`,
  the shas of its `parents`, and the metadata fields that the reordering
  passes through verbatim).
* `linearize` models the reordering step of `fetchCommitsDetails`
  (git.ts lines 236-252): the head-relocation scan, the nested
  parent-placement scan (both written with JavaScript `splice`
  move semantics, re-reading `commits[j]` on every inner iteration,
  exactly as the source does), and the final `reverse`.
  A `none` result models the `TypeError` thrown by
  `commits[j].parents[0].sha` when `parents` is empty.
* `withTemporaryRefModel` models `withTemporaryRef` together with
  `createTemporaryRef`, `createRef`, `deleteRef` and `generateUniqueRef`.
  Remote calls are recorded as `RemoteEvent`s; the nondeterministic UUID
  is an explicit parameter; `tryFinallyComp` is the JavaScript
  `try/finally` semantics (an abrupt completion of the `finally` block
  replaces the completion of the `try` block).
-/

namespace SGI

/-- One commit record of the pull-request commit listing: its own sha, the
shas of its parent commits (the source only ever reads `parents[0]`), and
the metadata that `getCommitsDetails` extracts verbatim. -/
structure Commit where
  sha : String
  parents : List String
  author : String
  committer : String
  message : String
  tree : String
deriving DecidableEq, Repr

/-- The record shape returned by `fetchCommitsDetails` (git.ts lines 26-32). -/
structure CommitDetails where
  author : String
  committer : String
  message : String
  sha : String
  tree : String
deriving DecidableEq, Repr

/-- `getCommitsDetails` (git.ts lines 191-205). -/
def getCommitsDetails (c : Commit) : CommitDetails :=
  ⟨c.author, c.committer, c.message, c.sha, c.tree⟩

/-- JavaScript `arr.splice(n, 0, a)`: insert `a` at index `n`, clamping the
index to the array length (so an out-of-range index appends). -/
def listInsertAt {α : Type} (n : Nat) (a : α) (l : List α) : List α :=
  l.take n ++ a :: l.drop n

/-- JavaScript `arr.splice(dest, 0, arr.splice(i, 1)[0])`: remove the
element at index `i` and re-insert it at index `dest`. -/
def jsMove {α : Type} (l : List α) (i dest : Nat) : List α :=
  match l.get? i with
  | none => l
  | some c => listInsertAt dest c (l.eraseIdx i)

/-- Body of the head-relocation loop (git.ts lines 236-241): if
`commits[i].sha === pr.data.head.sha`, move the i-th commit to index 0. -/
def headPassStep (headSha : String) (l : List Commit) (i : Nat) : List Commit :=
  match l.get? i with
  | none => l
  | some c => if c.sha = headSha then jsMove l i 0 else l

/-- The head-relocation loop, fueled: `for (i = 0; i < commits.length; i++)`.
The loop body preserves the length, so fuel `l.length` runs it to
completion. -/
def headPassAux (headSha : String) : Nat → Nat → List Commit → List Commit
  | 0, _, l => l
  | fuel + 1, i, l =>
    if i < l.length then headPassAux headSha fuel (i + 1) (headPassStep headSha l i)
    else l

/-- The head-relocation pass of `fetchCommitsDetails`. -/
def headPass (headSha : String) (l : List Commit) : List Commit :=
  headPassAux headSha l.length 0 l

/-- Body of the inner placement loop (git.ts lines 244-249): compare
`commits[i].sha` with `commits[j].parents[0].sha` and on a match move the
i-th commit to index `j + 1`.  `none` models the `TypeError` thrown when
`commits[j].parents` is empty (`parents[0]` is `undefined`). -/
def walkStep (l : List Commit) (j i : Nat) : Option (List Commit) :=
  match l.get? j with
  | none => none
  | some cj =>
    match cj.parents.head? with
    | none => none
    | some p =>
      match l.get? i with
      | none => some l
      | some ci => some (if ci.sha = p then jsMove l i (j + 1) else l)

/-- The inner placement loop, fueled: `for (i = 0; i < commits.length; i++)`
at a fixed outer index `j`; `commits[j]` is re-read on every iteration,
exactly as in the source. -/
def innerAux : Nat → Nat → Nat → List Commit → Option (List Commit)
  | 0, _, _, l => some l
  | fuel + 1, j, i, l =>
    if i < l.length then
      match walkStep l j i with
      | none => none
      | some l' => innerAux fuel j (i + 1) l'
    else some l

/-- The outer placement loop, fueled: `for (j = 0; j < commits.length; j++)`. -/
def outerAux : Nat → Nat → List Commit → Option (List Commit)
  | 0, _, l => some l
  | fuel + 1, j, l =>
    if j < l.length then
      match innerAux l.length j 0 l with
      | none => none
      | some l' => outerAux fuel (j + 1) l'
    else some l

/-- The reordering step of `fetchCommitsDetails` (git.ts lines 236-252):
head relocation, the nested placement scan, and the final `reverse`.
`none` models a thrown `TypeError`. -/
def linearize (commits : List Commit) (headSha : String) : Option (List Commit) :=
  let afterHead := headPass headSha commits
  (outerAux afterHead.length 0 afterHead).map List.reverse

/-- `fetchCommitsDetails` after the commits and the pull request's head sha
have been fetched: reorder, then map `getCommitsDetails` (git.ts line 252). -/
def fetchCommitsDetails (commits : List Commit) (headSha : String) :
    Option (List CommitDetails) :=
  (linearize commits headSha).map (List.map getCommitsDetails)

/-- `generateUniqueRef` (git.ts line 34); the UUID produced by the
`uuid/v4` generator is an explicit parameter. -/
def generateUniqueRef (ref uuid : String) : String := ref ++ "-" ++ uuid

/-- `getHeadRef` (git.ts line 35). -/
def getHeadRef (ref : String) : String := "heads/" ++ ref

/-- `getFullyQualifiedRef` (git.ts line 36). -/
def getFullyQualifiedRef (ref : String) : String := "refs/" ++ getHeadRef ref

/-- An observable step of a `withTemporaryRef` run: a `createRef` call, an
invocation of the caller's `action`, or a `deleteRef` call.  The strings
are the exact ref arguments handed to the remote API / to `action`. -/
inductive RemoteEvent where
  | createOp : String → String → RemoteEvent
  | actionInvoked : String → RemoteEvent
  | deleteOp : String → RemoteEvent
deriving DecidableEq, Repr

/-- A computation against the remote collaborator: the ordered list of
events it performed, and its outcome (normal return or raised error). -/
abbrev Comp (E α : Type) := List RemoteEvent × Except E α

/-- Monadic return for `Comp`. -/
def pureComp {E α : Type} (a : α) : Comp E α := ([], Except.ok a)

/-- Sequencing for `Comp`: if the first computation raised, the
continuation never runs. -/
def bindComp {E α β : Type} (m : Comp E α) (f : α → Comp E β) : Comp E β :=
  match m with
  | (evs, Except.error e) => (evs, Except.error e)
  | (evs, Except.ok a) => ((evs ++ (f a).1), (f a).2)

/-- JavaScript `try { body } finally { fin }` for non-control-flow bodies:
the finalizer always runs after the body, and an abrupt completion of the
finalizer replaces the completion of the body. -/
def tryFinallyComp {E α : Type} (body : Comp E α) (fin : Comp E Unit) : Comp E α :=
  (body.1 ++ fin.1,
   match fin.2 with
   | Except.error e => Except.error e
   | Except.ok _ => body.2)

/-- The outcomes the environment chooses for one `withTemporaryRef` run:
whether the remote `createRef` / `deleteRef` calls fail (`some` error) or
succeed (`none`), and what the caller's `action` does. -/
structure Behavior (E T : Type) where
  createResult : Option E
  actionResult : Except E T
  deleteResult : Option E

/-- `createRef` (git.ts lines 103-122): one remote call on the fully
qualified ref name. -/
def createRefModel {E T : Type} (b : Behavior E T) (ref sha : String) : Comp E Unit :=
  ([RemoteEvent.createOp (getFullyQualifiedRef ref) sha],
   match b.createResult with
   | none => Except.ok ()
   | some e => Except.error e)

/-- `deleteRef` (git.ts lines 85-101): one remote call on the head-ref
name. -/
def deleteRefModel {E T : Type} (b : Behavior E T) (ref : String) : Comp E Unit :=
  ([RemoteEvent.deleteOp (getHeadRef ref)],
   match b.deleteResult with
   | none => Except.ok ()
   | some e => Except.error e)

/-- The value returned by `createTemporaryRef`: the generated name and the
`deleteTemporaryRef` closure. -/
structure TempRefHandle (E : Type) where
  temporaryRef : String
  deleteTemporaryRef : Comp E Unit

/-- `createTemporaryRef` (git.ts lines 124-159). -/
def createTemporaryRefModel {E T : Type} (b : Behavior E T) (ref uuid sha : String) :
    Comp E (TempRefHandle E) :=
  bindComp (createRefModel b (generateUniqueRef ref uuid) sha)
    (fun _ => pureComp ⟨generateUniqueRef ref uuid, deleteRefModel b (generateUniqueRef ref uuid)⟩)

/-- The caller's `action`, invoked with the temporary ref name; its
invocation is recorded and its outcome is `b.actionResult`. -/
def actionModel {E T : Type} (b : Behavior E T) (ref : String) : Comp E T :=
  ([RemoteEvent.actionInvoked ref], b.actionResult)

/-- `withTemporaryRef` (git.ts lines 161-189): create the temporary ref,
then `try { return await action(temporaryRef) } finally { await
deleteTemporaryRef() }`. -/
def withTemporaryRefModel {E T : Type} (b : Behavior E T) (ref uuid sha : String) :
    Comp E T :=
  bindComp (createTemporaryRefModel b ref uuid sha)
    (fun h => tryFinallyComp (actionModel b h.temporaryRef) h.deleteTemporaryRef)

/-- A `RemoteEvent` test: is this event a `deleteRef` call? -/
def isDeleteOp : RemoteEvent → Bool
  | RemoteEvent.deleteOp _ => true
  | _ => false

/-- The adjacency relation of the reconstructed chain: `b`'s first parent
sha is `a`'s sha. -/
def linkRel (a b : Commit) : Prop := b.parents.head? = some a.sha

instance : DecidableRel linkRel := fun a b =>
  inferInstanceAs (Decidable (b.parents.head? = some a.sha))

/-- The chain's first record is a root boundary: it has a first parent sha
and that sha resolves to no record of the chain. -/
def rootUnresolvedB (chain : List Commit) : Bool :=
  match chain with
  | [] => false
  | c :: rest =>
    match c.parents.head? with
    | none => false
    | some p => decide (p ∉ (c :: rest).map Commit.sha)

/-! ## Temporary-ref lifecycle: C2, C5, C8 -/

/-- Full characterization of a `withTemporaryRef` run whose `createRef`
succeeded: the trace is create, action, delete (in that order), and the
outcome is the deletion's error if the deletion failed, otherwise the
action's outcome. -/
theorem withTemporaryRef_run {E T : Type} (b : Behavior E T) (ref uuid sha : String)
    (hc : b.createResult = none) :
    withTemporaryRefModel b ref uuid sha =
      ([RemoteEvent.createOp (getFullyQualifiedRef (generateUniqueRef ref uuid)) sha,
        RemoteEvent.actionInvoked (generateUniqueRef ref uuid),
        RemoteEvent.deleteOp (getHeadRef (generateUniqueRef ref uuid))],
       match b.deleteResult with
       | some e => Except.error e
       | none => b.actionResult) := by
  obtain ⟨cr, ar, dr⟩ := b
  cases hc
  cases dr <;>
    simp [withTemporaryRefModel, createTemporaryRefModel, createRefModel,
      deleteRefModel, actionModel, bindComp, pureComp, tryFinallyComp]

/-- C2 counterexample: with the action raising `"actErr"` and the deletion
raising `"delErr"`, the error propagated out of `withTemporaryRef` is the
deletion's, not the action's. -/
theorem c2_counterexample :
    (Behavior.actionResult ⟨none, Except.error "actErr", some "delErr"⟩
      = (Except.error "actErr" : Except String Nat)) ∧
    (withTemporaryRefModel (⟨none, Except.error "actErr", some "delErr"⟩ :
        Behavior String Nat) "foo" "u1" "sha1").2 = Except.error "delErr" ∧
    ("delErr" : String) ≠ "actErr" := by
  refine ⟨rfl, rfl, by decide⟩

/-- C2 amended: whenever `createRef` succeeds, the propagated outcome is
the deletion's error if the deletion failed (the `finally` clause's abrupt
completion replaces the action's), and the action's own outcome only when
the deletion succeeded. -/
theorem c2_first_error_semantics {E T : Type} (b : Behavior E T) (ref uuid sha : String)
    (hc : b.createResult = none) :
    (withTemporaryRefModel b ref uuid sha).2 =
      match b.deleteResult with
      | some e => Except.error e
      | none => b.actionResult := by
  rw [withTemporaryRef_run b ref uuid sha hc]

/-- C2 amended, witness: deletion succeeds, action raises `"boom"`, and
`"boom"` is what propagates. -/
theorem c2_first_error_semantics_witness :
    (withTemporaryRefModel (⟨none, Except.error "boom", none⟩ :
        Behavior String Nat) "bar" "u2" "sha2").2 = Except.error "boom" :=
  @c2_first_error_semantics String Nat ⟨none, Except.error "boom", none⟩ "bar" "u2" "sha2" rfl

/-- C5: whenever `createRef` succeeds, the run performs exactly one
`deleteRef` call, positioned after the action's invocation, whatever the
action's and the deletion's outcomes are. -/
theorem c5_delete_exactly_once {E T : Type} (b : Behavior E T) (ref uuid sha : String)
    (hc : b.createResult = none) :
    (withTemporaryRefModel b ref uuid sha).1 =
      [RemoteEvent.createOp (getFullyQualifiedRef (generateUniqueRef ref uuid)) sha,
       RemoteEvent.actionInvoked (generateUniqueRef ref uuid),
       RemoteEvent.deleteOp (getHeadRef (generateUniqueRef ref uuid))] ∧
    ((withTemporaryRefModel b ref uuid sha).1.filter isDeleteOp).length = 1 := by
  rw [withTemporaryRef_run b ref uuid sha hc]
  exact ⟨rfl, by simp [isDeleteOp]⟩

/-- C5 witness: a run with a raising action still deletes exactly once. -/
theorem c5_delete_exactly_once_witness :
    ((withTemporaryRefModel (⟨none, Except.error "err", none⟩ :
        Behavior String Nat) "base" "u3" "sha3").1.filter isDeleteOp).length = 1 :=
  (@c5_delete_exactly_once String Nat ⟨none, Except.error "err", none⟩ "base" "u3" "sha3" rfl).2

/-- C8: the temporary ref name is exactly the base name, a hyphen, and the
generated unique suffix; the ref created at the supplied sha bears that
name (fully qualified on the wire), and the action is invoked with it. -/
theorem c8_unique_ref_name {E T : Type} (b : Behavior E T) (ref uuid sha : String)
    (hc : b.createResult = none) :
    generateUniqueRef ref uuid = ref ++ "-" ++ uuid ∧
    (withTemporaryRefModel b ref uuid sha).1.head? =
      some (RemoteEvent.createOp (getFullyQualifiedRef (ref ++ "-" ++ uuid)) sha) ∧
    RemoteEvent.actionInvoked (ref ++ "-" ++ uuid) ∈ (withTemporaryRefModel b ref uuid sha).1 := by
  rw [withTemporaryRef_run b ref uuid sha hc]
  exact ⟨rfl, rfl, by simp [generateUniqueRef]⟩

/-- C8 witness at concrete arguments. -/
theorem c8_unique_ref_name_witness :
    generateUniqueRef "foo" "0000" = "foo" ++ "-" ++ "0000" ∧
    (withTemporaryRefModel (⟨none, Except.ok 7, none⟩ :
        Behavior String Nat) "foo" "0000" "abc123").1.head? =
      some (RemoteEvent.createOp (getFullyQualifiedRef ("foo" ++ "-" ++ "0000")) "abc123") ∧
    RemoteEvent.actionInvoked ("foo" ++ "-" ++ "0000") ∈
      (withTemporaryRefModel (⟨none, Except.ok 7, none⟩ :
        Behavior String Nat) "foo" "0000" "abc123").1 :=
  @c8_unique_ref_name String Nat ⟨none, Except.ok 7, none⟩ "foo" "0000" "abc123" rfl

/-! ## List index helpers for the splice semantics -/

/-- Reading inside the left part of an append. -/
theorem get?_append_lt {α : Type} (l₁ l₂ : List α) (i : Nat) (h : i < l₁.length) :
    (l₁ ++ l₂).get? i = l₁.get? i := by
  induction l₁ generalizing i with
  | nil => simp at h
  | cons x xs ih =>
    cases i with
    | zero => rfl
    | succ n => exact ih n (by simpa using h)

/-- Reading exactly at the append boundary. -/
theorem get?_append_cons_self {α : Type} (l₁ : List α) (a : α) (l₂ : List α) :
    (l₁ ++ a :: l₂).get? l₁.length = some a := by
  induction l₁ with
  | nil => rfl
  | cons x xs ih => exact ih

/-- Erasing exactly at the append boundary. -/
theorem eraseIdx_append_cons_self {α : Type} (l₁ : List α) (a : α) (l₂ : List α) :
    (l₁ ++ a :: l₂).eraseIdx l₁.length = l₁ ++ l₂ := by
  induction l₁ with
  | nil => rfl
  | cons x xs ih => simpa using ih

/-- Inserting exactly at the append boundary. -/
theorem insertAt_append_self {α : Type} (l₁ : List α) (a : α) (l₂ : List α) :
    listInsertAt l₁.length a (l₁ ++ l₂) = l₁ ++ a :: l₂ := by
  induction l₁ with
  | nil => rfl
  | cons x xs ih => simp only [listInsertAt] at ih ⊢; simp [ih]

/-- Inserting at index 0. -/
theorem listInsertAt_zero {α : Type} (a : α) (l : List α) : listInsertAt 0 a l = a :: l := rfl

/-- Unfolding a `splice`-move once the source element is known. -/
theorem jsMove_of_get? {α : Type} (l : List α) (i dest : Nat) (c : α)
    (hg : l.get? i = some c) :
    jsMove l i dest = listInsertAt dest c (l.eraseIdx i) := by
  unfold jsMove; rw [hg]

/-- A `splice`-move whose source index sits at an append boundary. -/
theorem jsMove_append_cons {α : Type} (l₁ : List α) (a : α) (l₂ : List α) (dest : Nat) :
    jsMove (l₁ ++ a :: l₂) l₁.length dest = listInsertAt dest a (l₁ ++ l₂) := by
  rw [jsMove_of_get? _ _ _ _ (get?_append_cons_self l₁ a l₂), eraseIdx_append_cons_self]

/-- Unfolding a head-pass step once the scanned element is known. -/
theorem headPassStep_of_get? (h : String) (l : List Commit) (i : Nat) (c : Commit)
    (hg : l.get? i = some c) :
    headPassStep h l i = if c.sha = h then jsMove l i 0 else l := by
  unfold headPassStep; rw [hg]

/-- Unfolding a walk step once the watched record, its first parent sha and
the scanned record are known. -/
theorem walkStep_of_get? (l : List Commit) (j i : Nat) (cj : Commit) (p : String)
    (ci : Commit) (hgj : l.get? j = some cj) (hp : cj.parents.head? = some p)
    (hgi : l.get? i = some ci) :
    walkStep l j i = some (if ci.sha = p then jsMove l i (j + 1) else l) := by
  simp only [walkStep, hgj, hp, hgi]

/-- A walk step on a record with no parents models the thrown
`TypeError`. -/
theorem walkStep_of_no_parent (l : List Commit) (j i : Nat) (cj : Commit)
    (hgj : l.get? j = some cj) (hp : cj.parents.head? = none) :
    walkStep l j i = none := by
  simp only [walkStep, hgj, hp]

/-! ## The head-relocation pass -/

/-- Scanning a suffix that contains no record with the head sha leaves the
list unchanged. -/
theorem headPassAux_no_match (h : String) :
    ∀ (suf pre : List Commit) (fuel : Nat), suf.length ≤ fuel →
      (∀ c ∈ suf, c.sha ≠ h) →
      headPassAux h fuel pre.length (pre ++ suf) = pre ++ suf := by
  intro suf
  induction suf with
  | nil =>
    intro pre fuel _ _
    cases fuel with
    | zero => rfl
    | succ f => simp [headPassAux]
  | cons x xs ih =>
    intro pre fuel hfuel hno
    obtain ⟨f, rfl⟩ : ∃ f, fuel = f + 1 := ⟨fuel - 1, by simp at hfuel; omega⟩
    have hcond : pre.length < (pre ++ x :: xs).length := by simp
    have hx : x.sha ≠ h := hno x (List.mem_cons_self x xs)
    have hstep : headPassStep h (pre ++ x :: xs) pre.length = pre ++ x :: xs := by
      rw [headPassStep_of_get? h _ _ x (get?_append_cons_self pre x xs), if_neg hx]
    rw [headPassAux, if_pos hcond, hstep]
    have := ih (pre ++ [x]) f (by simp at hfuel ⊢; omega)
      (fun c hc => hno c (List.mem_cons_of_mem x hc))
    simpa using this

/-- Scanning up to the unique record carrying the head sha moves it to the
front and leaves everything else in place. -/
theorem headPassAux_found (h : String) (c : Commit) (s₂ : List Commit)
    (hc : c.sha = h) (hs₂ : ∀ x ∈ s₂, x.sha ≠ h) :
    ∀ (s₁ pre : List Commit) (fuel : Nat),
      s₁.length + s₂.length + 1 ≤ fuel →
      (∀ x ∈ s₁, x.sha ≠ h) →
      headPassAux h fuel pre.length (pre ++ (s₁ ++ c :: s₂)) = c :: (pre ++ (s₁ ++ s₂)) := by
  intro s₁
  induction s₁ with
  | nil =>
    intro pre fuel hfuel _
    obtain ⟨f, rfl⟩ : ∃ f, fuel = f + 1 := ⟨fuel - 1, by omega⟩
    have hcond : pre.length < (pre ++ ([] ++ c :: s₂)).length := by simp
    have hstep : headPassStep h (pre ++ ([] ++ c :: s₂)) pre.length = c :: (pre ++ s₂) := by
      simp only [List.nil_append]
      rw [headPassStep_of_get? h _ _ c (get?_append_cons_self pre c s₂), if_pos hc,
        jsMove_append_cons, listInsertAt_zero]
    rw [headPassAux, if_pos hcond, hstep]
    have := headPassAux_no_match h s₂ (c :: pre) f (by omega) hs₂
    simpa using this
  | cons x s₁' ih =>
    intro pre fuel hfuel hs₁
    obtain ⟨f, rfl⟩ : ∃ f, fuel = f + 1 := ⟨fuel - 1, by omega⟩
    simp only [List.cons_append]
    have hcond : pre.length < (pre ++ x :: (s₁' ++ c :: s₂)).length := by simp
    have hx : x.sha ≠ h := hs₁ x (List.mem_cons_self x s₁')
    have hstep : headPassStep h (pre ++ x :: (s₁' ++ c :: s₂)) pre.length
        = pre ++ x :: (s₁' ++ c :: s₂) := by
      rw [headPassStep_of_get? h _ _ x (get?_append_cons_self pre x (s₁' ++ c :: s₂)), if_neg hx]
    rw [headPassAux, if_pos hcond, hstep]
    have := ih (pre ++ [x]) f (by simp at hfuel ⊢; omega)
      (fun y hy => hs₁ y (List.mem_cons_of_mem x hy))
    simpa using this

/-! ## The placement walk -/

/-- The inner scan past the end of the array returns the list unchanged. -/
theorem innerAux_at_end (fuel j i : Nat) (l : List Commit) (h : l.length ≤ i) :
    innerAux fuel j i l = some l := by
  cases fuel with
  | zero => rfl
  | succ f => rw [innerAux, if_neg (by omega)]

/-- The inner scan steps over a segment containing no record whose sha is
the watched parent sha, leaving the list unchanged. -/
theorem innerAux_segment (j : Nat) (cj : Commit) (p : String) :
    ∀ (mid pre rest : List Commit) (fuel : Nat),
      (pre ++ (mid ++ rest)).get? j = some cj →
      cj.parents.head? = some p →
      (∀ x ∈ mid, x.sha ≠ p) →
      innerAux (mid.length + fuel) j pre.length (pre ++ (mid ++ rest)) =
        innerAux fuel j (pre.length + mid.length) (pre ++ (mid ++ rest)) := by
  intro mid
  induction mid with
  | nil => intro pre rest fuel _ _ _; simp
  | cons x xs ih =>
    intro pre rest fuel hj hp hno
    simp only [List.cons_append, List.length_cons] at hj ⊢
    rw [show xs.length + 1 + fuel = xs.length + fuel + 1 by omega]
    have hcond : pre.length < (pre ++ x :: (xs ++ rest)).length := by simp
    have hws : walkStep (pre ++ x :: (xs ++ rest)) j pre.length
        = some (pre ++ x :: (xs ++ rest)) := by
      rw [walkStep_of_get? _ _ _ cj p x hj hp (get?_append_cons_self pre x (xs ++ rest)),
        if_neg (hno x (List.mem_cons_self x xs))]
    rw [innerAux, if_pos hcond, hws]
    show innerAux (xs.length + fuel) j (pre.length + 1) (pre ++ x :: (xs ++ rest))
        = innerAux fuel j (pre.length + (xs.length + 1)) (pre ++ x :: (xs ++ rest))
    have := ih (pre ++ [x]) rest fuel (by simpa using hj) hp
      (fun y hy => hno y (List.mem_cons_of_mem x hy))
    simp only [List.append_assoc, List.singleton_append, List.length_append,
      List.length_cons, List.length_nil, Nat.zero_add] at this
    rw [show pre.length + (xs.length + 1) = pre.length + 1 + xs.length by omega]
    exact this

/-- The inner scan over a suffix containing no record whose sha is the
watched parent sha terminates with the list unchanged. -/
theorem innerAux_no_match (j : Nat) (cj : Commit) (p : String)
    (suf pre : List Commit) (fuel : Nat) (hfuel : suf.length ≤ fuel)
    (hj : (pre ++ suf).get? j = some cj)
    (hp : cj.parents.head? = some p)
    (hno : ∀ x ∈ suf, x.sha ≠ p) :
    innerAux fuel j pre.length (pre ++ suf) = some (pre ++ suf) := by
  obtain ⟨f, rfl⟩ : ∃ f, fuel = suf.length + f := ⟨fuel - suf.length, by omega⟩
  have hseg := innerAux_segment j cj p suf pre [] f (by simpa using hj) hp hno
  simp only [List.append_nil] at hseg
  rw [hseg]
  exact innerAux_at_end f j (pre.length + suf.length) (pre ++ suf) (by simp)

/-- The inner scan finds the unique record carrying the watched parent
sha in the unexplored suffix and moves it to index `j + 1`; the scan then
runs to the end without further moves. -/
theorem innerAux_found (j : Nat) (cj : Commit) (p : String) (cp : Commit)
    (s₂ : List Commit) (hcp : cp.sha = p) (hs₂ : ∀ x ∈ s₂, x.sha ≠ p) :
    ∀ (s₁ preB preA : List Commit) (fuel : Nat),
      preA.length = j + 1 →
      preA.get? j = some cj →
      cj.parents.head? = some p →
      (∀ x ∈ s₁, x.sha ≠ p) →
      s₁.length + s₂.length + 1 ≤ fuel →
      innerAux fuel j (preA.length + preB.length) (preA ++ (preB ++ (s₁ ++ cp :: s₂))) =
        some (preA ++ cp :: (preB ++ (s₁ ++ s₂))) := by
  intro s₁
  induction s₁ with
  | nil =>
    intro preB preA fuel hlen hj hp _ hfuel
    obtain ⟨f, rfl⟩ : ∃ f, fuel = f + 1 := ⟨fuel - 1, by omega⟩
    simp only [List.nil_append]
    have hjfull : (preA ++ (preB ++ cp :: s₂)).get? j = some cj := by
      rw [get?_append_lt _ _ _ (by omega), hj]
    have hgi : (preA ++ (preB ++ cp :: s₂)).get? (preA.length + preB.length) = some cp := by
      have := get?_append_cons_self (preA ++ preB) cp s₂
      simpa using this
    have hmv : jsMove (preA ++ (preB ++ cp :: s₂)) (preA.length + preB.length) (j + 1)
        = preA ++ cp :: (preB ++ s₂) := by
      have h1 := jsMove_append_cons (preA ++ preB) cp s₂ (j + 1)
      simp only [List.append_assoc, List.length_append] at h1
      rw [h1, ← hlen, insertAt_append_self]
    have hws : walkStep (preA ++ (preB ++ cp :: s₂)) j (preA.length + preB.length)
        = some (preA ++ cp :: (preB ++ s₂)) := by
      rw [walkStep_of_get? _ _ _ cj p cp hjfull hp hgi, if_pos hcp, hmv]
    have hcond : preA.length + preB.length < (preA ++ (preB ++ cp :: s₂)).length := by
      simp
    rw [innerAux, if_pos hcond, hws]
    show innerAux f j (preA.length + preB.length + 1) (preA ++ cp :: (preB ++ s₂))
        = some (preA ++ cp :: (preB ++ s₂))
    have hend := innerAux_no_match j cj p s₂ (preA ++ cp :: preB) f
      (by simp at hfuel ⊢; omega)
      (by rw [get?_append_lt _ _ _ (by simp; omega), get?_append_lt _ _ _ (by omega), hj])
      hp hs₂
    simp only [List.append_assoc, List.cons_append, List.length_append,
      List.length_cons] at hend
    rw [show preA.length + preB.length + 1 = preA.length + (preB.length + 1) by omega]
    exact hend
  | cons x s₁' ih =>
    intro preB preA fuel hlen hj hp hs₁ hfuel
    obtain ⟨f, rfl⟩ : ∃ f, fuel = f + 1 := ⟨fuel - 1, by omega⟩
    simp only [List.cons_append]
    have hjfull : (preA ++ (preB ++ x :: (s₁' ++ cp :: s₂))).get? j = some cj := by
      rw [get?_append_lt _ _ _ (by omega), hj]
    have hgi : (preA ++ (preB ++ x :: (s₁' ++ cp :: s₂))).get? (preA.length + preB.length)
        = some x := by
      have := get?_append_cons_self (preA ++ preB) x (s₁' ++ cp :: s₂)
      simpa using this
    have hws : walkStep (preA ++ (preB ++ x :: (s₁' ++ cp :: s₂))) j (preA.length + preB.length)
        = some (preA ++ (preB ++ x :: (s₁' ++ cp :: s₂))) := by
      rw [walkStep_of_get? _ _ _ cj p x hjfull hp hgi,
        if_neg (hs₁ x (List.mem_cons_self x s₁'))]
    have hcond : preA.length + preB.length
        < (preA ++ (preB ++ x :: (s₁' ++ cp :: s₂))).length := by simp
    rw [innerAux, if_pos hcond, hws]
    show innerAux f j (preA.length + preB.length + 1) (preA ++ (preB ++ x :: (s₁' ++ cp :: s₂)))
        = some (preA ++ cp :: (preB ++ x :: (s₁' ++ s₂)))
    have := ih (preB ++ [x]) preA f hlen hj hp
      (fun y hy => hs₁ y (List.mem_cons_of_mem x hy)) (by simp at hfuel ⊢; omega)
    simp only [List.append_assoc, List.singleton_append, List.length_append,
      List.length_cons, List.length_nil, Nat.zero_add] at this
    rw [show preA.length + preB.length + 1 = preA.length + (preB.length + 1) by omega]
    exact this

/-- The outer walk past the end of the array returns the list unchanged. -/
theorem outerAux_at_end (fuel j : Nat) (l : List Commit) (h : l.length ≤ j) :
    outerAux fuel j l = some l := by
  cases fuel with
  | zero => rfl
  | succ f => rw [outerAux, if_neg (by omega)]

/-- In a permutation of a duplicate-sha-free reference list, a member of
the reference splits the permutation around its unique occurrence. -/
theorem uniqueSplit (l ref : List Commit) (c : Commit)
    (hperm : List.Perm l ref) (hnd : (ref.map Commit.sha).Nodup) (hc : c ∈ ref) :
    ∃ r₁ r₂, l = r₁ ++ c :: r₂ ∧ (∀ x ∈ r₁, x.sha ≠ c.sha) ∧ (∀ x ∈ r₂, x.sha ≠ c.sha) := by
  obtain ⟨r₁, r₂, rfl⟩ := List.append_of_mem (hperm.mem_iff.mpr hc)
  have hcount : ref.count c ≤ 1 := List.nodup_iff_count_le_one.mp hnd.of_map c
  have hcnt : (r₁ ++ c :: r₂).count c = ref.count c := hperm.count_eq c
  rw [List.count_append, List.count_cons_self] at hcnt
  refine ⟨r₁, r₂, rfl, ?_, ?_⟩ <;> intro x hx hsha
  · have hxref : x ∈ ref := hperm.mem_iff.mp (by simp [hx])
    have hxc : x = c := List.inj_on_of_nodup_map hnd hxref hc hsha
    subst hxc
    have : 0 < r₁.count x := List.count_pos_iff.mpr hx
    omega
  · have hxref : x ∈ ref := hperm.mem_iff.mp (by simp [hx])
    have hxc : x = c := List.inj_on_of_nodup_map hnd hxref hc hsha
    subst hxc
    have : 0 < r₂.count x := List.count_pos_iff.mpr hx
    omega

/-- In a duplicate-sha-free split list, a member of the left part shares
its sha with no member of the right part. -/
theorem sha_notin_other (pre suf : List Commit) (c : Commit)
    (hnd : ((pre ++ suf).map Commit.sha).Nodup) (hc : c ∈ pre) :
    ∀ x ∈ suf, x.sha ≠ c.sha := by
  intro x hx hsha
  rw [List.map_append] at hnd
  exact (List.nodup_append.mp hnd).2.2 (List.mem_map_of_mem Commit.sha hc)
    (hsha ▸ List.mem_map_of_mem Commit.sha hx)

/-- The outer walk, started with the already-placed head-first part of the
chain in front and a permutation of the still-unplaced older commits
behind it, reconstructs the whole chain in head-first order.  `chain` is
the true oldest-to-newest chain; `pre` its unplaced older part; `suf` its
placed newer part (so the working array is `suf.reverse ++ rest`). -/
theorem outerAux_of_chain (chain : List Commit)
    (hchain : List.Chain' linkRel chain)
    (hnodup : (chain.map Commit.sha).Nodup)
    (hroot : rootUnresolvedB chain = true) :
    ∀ (pre suf rest : List Commit) (fuel : Nat),
      chain = pre ++ suf → suf ≠ [] → List.Perm rest pre → pre.length + 1 ≤ fuel →
      outerAux fuel (suf.length - 1) (suf.reverse ++ rest) = some chain.reverse := by
  intro pre
  induction pre using List.reverseRecOn with
  | nil =>
    intro suf rest fuel hsplit hne hperm hfuel
    have hsuf : suf = chain := by simpa using hsplit.symm
    subst hsuf
    have hrest : rest = [] := hperm.eq_nil
    subst hrest
    obtain ⟨c, cr, rfl⟩ : ∃ c cr, suf = c :: cr := by
      cases suf with
      | nil => exact absurd rfl hne
      | cons c cr => exact ⟨c, cr, rfl⟩
    obtain ⟨p, hcp, hpnot⟩ : ∃ p, c.parents.head? = some p ∧ p ∉ (c :: cr).map Commit.sha := by
      cases hcp : c.parents.head? with
      | none => simp [rootUnresolvedB, hcp] at hroot
      | some p =>
        simp only [rootUnresolvedB, hcp, decide_eq_true_eq] at hroot
        exact ⟨p, rfl, hroot⟩
    obtain ⟨f, rfl⟩ : ∃ f, fuel = f + 1 := ⟨fuel - 1, by omega⟩
    simp only [List.append_nil, List.length_cons, Nat.add_sub_cancel, List.reverse_cons]
    have hj : (cr.reverse ++ [c]).get? cr.length = some c := by
      have := get?_append_cons_self cr.reverse c []
      rw [List.length_reverse] at this
      exact this
    have hno : ∀ x ∈ cr.reverse ++ [c], x.sha ≠ p := by
      intro x hx hsha
      have hx' : x ∈ c :: cr := by
        simp only [List.mem_append, List.mem_reverse, List.mem_singleton] at hx
        rcases hx with hx | hx
        · exact List.mem_cons_of_mem c hx
        · exact hx ▸ List.mem_cons_self c cr
      exact hpnot (hsha ▸ List.mem_map_of_mem Commit.sha hx')
    have hinner : innerAux (cr.reverse ++ [c]).length cr.length 0 (cr.reverse ++ [c])
        = some (cr.reverse ++ [c]) :=
      innerAux_no_match cr.length c p (cr.reverse ++ [c]) [] (cr.reverse ++ [c]).length
        le_rfl hj hcp hno
    have hcond : cr.length < (cr.reverse ++ [c]).length := by simp
    rw [outerAux, if_pos hcond, hinner]
    show outerAux f (cr.length + 1) (cr.reverse ++ [c]) = some (cr.reverse ++ [c])
    exact outerAux_at_end f (cr.length + 1) (cr.reverse ++ [c]) (by simp)
  | append_singleton pre' cp ih =>
    intro suf rest fuel hsplit hne hperm hfuel
    obtain ⟨d, suf', rfl⟩ : ∃ d s, suf = d :: s := by
      cases suf with
      | nil => exact absurd rfl hne
      | cons d s => exact ⟨d, s, rfl⟩
    have h1 : chain = pre' ++ (cp :: d :: suf') := by rw [hsplit]; simp
    have hchain2 : List.Chain' linkRel (cp :: d :: suf') := by
      have hc2 := hchain
      rw [h1] at hc2
      exact (List.chain'_append.mp hc2).2.1
    have hlink : d.parents.head? = some cp.sha := (List.chain'_cons.mp hchain2).1
    have hnd2 : (((pre' ++ [cp]) ++ (d :: suf')).map Commit.sha).Nodup := by
      rw [← hsplit]; exact hnodup
    have hndpre : ((pre' ++ [cp]).map Commit.sha).Nodup := by
      rw [List.map_append] at hnd2
      exact hnd2.of_append_left
    obtain ⟨r₁, r₂, rfl, hr₁, hr₂⟩ :=
      uniqueSplit rest (pre' ++ [cp]) cp hperm hndpre (by simp)
    have hplaced : ∀ x ∈ d :: suf', x.sha ≠ cp.sha :=
      sha_notin_other (pre' ++ [cp]) (d :: suf') cp hnd2 (by simp)
    obtain ⟨f, rfl⟩ : ∃ f, fuel = f + 1 := ⟨fuel - 1, by omega⟩
    simp only [List.length_cons, Nat.add_sub_cancel, List.reverse_cons]
    have hjA : (suf'.reverse ++ [d]).get? suf'.length = some d := by
      have := get?_append_cons_self suf'.reverse d []
      rw [List.length_reverse] at this
      exact this
    have hjl : (((suf'.reverse ++ [d]) ++ r₁) ++ (cp :: r₂)).get? suf'.length = some d := by
      rw [get?_append_lt _ _ _ (by simp), get?_append_lt _ _ _ (by simp)]
      exact hjA
    have hmid : ∀ x ∈ (suf'.reverse ++ [d]) ++ r₁, x.sha ≠ cp.sha := by
      intro x hx
      simp only [List.mem_append, List.mem_reverse, List.mem_singleton] at hx
      rcases hx with (hx | hx) | hx
      · exact hplaced x (List.mem_cons_of_mem d hx)
      · exact hx ▸ hplaced d (List.mem_cons_self d suf')
      · exact hr₁ x hx
    have hcond : suf'.length < ((suf'.reverse ++ [d]) ++ (r₁ ++ cp :: r₂)).length := by simp
    rw [outerAux, if_pos hcond]
    rw [show (suf'.reverse ++ [d]) ++ (r₁ ++ cp :: r₂)
        = ((suf'.reverse ++ [d]) ++ r₁) ++ (cp :: r₂) from by simp]
    rw [show (((suf'.reverse ++ [d]) ++ r₁) ++ (cp :: r₂)).length
        = ((suf'.reverse ++ [d]) ++ r₁).length + (r₂.length + 1) from by simp; try omega]
    have hseg := innerAux_segment suf'.length d cp.sha ((suf'.reverse ++ [d]) ++ r₁) []
      (cp :: r₂) (r₂.length + 1) hjl hlink hmid
    rw [List.nil_append, List.length_nil, Nat.zero_add] at hseg
    rw [hseg]
    have hfound := innerAux_found suf'.length d cp.sha cp r₂ rfl hr₂ [] r₁
      (suf'.reverse ++ [d]) (r₂.length + 1) (by simp) hjA hlink (by simp) (by simp)
    simp only [List.nil_append] at hfound
    rw [show ((suf'.reverse ++ [d]) ++ r₁) ++ (cp :: r₂)
        = (suf'.reverse ++ [d]) ++ (r₁ ++ cp :: r₂) from by simp]
    rw [show ((suf'.reverse ++ [d]) ++ r₁).length
        = (suf'.reverse ++ [d]).length + r₁.length from by simp; try omega]
    rw [hfound]
    show outerAux f (suf'.length + 1) ((suf'.reverse ++ [d]) ++ cp :: (r₁ ++ r₂))
        = some chain.reverse
    have hperm' : List.Perm (r₁ ++ r₂) pre' := by
      have e1 : List.Perm (r₁ ++ cp :: r₂) (cp :: (r₁ ++ r₂)) := List.perm_middle
      have e2 : List.Perm (pre' ++ [cp]) (cp :: pre') := by
        have e0 : List.Perm (pre' ++ cp :: []) (cp :: (pre' ++ [])) := List.perm_middle
        rw [List.append_nil] at e0
        exact e0
      exact ((e1.symm.trans hperm).trans e2).cons_inv
    have hih := ih (cp :: d :: suf') (r₁ ++ r₂) f h1 (by simp) hperm'
      (by simp at hfuel ⊢; omega)
    simpa using hih

/-- Main correctness result: on any permutation of a duplicate-free
linear chain whose root's first parent sha resolves to no record of the
chain, the reordering of `fetchCommitsDetails`, called with the chain's
newest sha as head, returns exactly the oldest-to-newest chain. -/
theorem linearize_of_chain (chain chainInit l : List Commit) (clast : Commit)
    (hsplit : chain = chainInit ++ [clast])
    (hchain : List.Chain' linkRel chain)
    (hnodup : (chain.map Commit.sha).Nodup)
    (hroot : rootUnresolvedB chain = true)
    (hperm : List.Perm l chain) :
    linearize l clast.sha = some chain := by
  have hclast : clast ∈ chain := by rw [hsplit]; simp
  obtain ⟨l₁, l₂, rfl, hl₁, hl₂⟩ := uniqueSplit l chain clast hperm hnodup hclast
  rw [hsplit] at hperm
  have hhp : headPass clast.sha (l₁ ++ clast :: l₂) = clast :: (l₁ ++ l₂) := by
    unfold headPass
    have := headPassAux_found clast.sha clast l₂ rfl hl₂ l₁ []
      ((l₁ ++ clast :: l₂).length) (by simp; try omega) hl₁
    simpa using this
  have hperm2 : List.Perm (l₁ ++ l₂) chainInit := by
    have e1 : List.Perm (l₁ ++ clast :: l₂) (clast :: (l₁ ++ l₂)) := List.perm_middle
    have e2 : List.Perm (chainInit ++ [clast]) (clast :: chainInit) := by
      have e0 : List.Perm (chainInit ++ clast :: []) (clast :: (chainInit ++ [])) :=
        List.perm_middle
      rw [List.append_nil] at e0
      exact e0
    exact ((e1.symm.trans hperm).trans e2).cons_inv
  have hfuel : chainInit.length + 1 ≤ (clast :: (l₁ ++ l₂)).length := by
    have hlen := hperm.length_eq
    simp at hlen ⊢
    omega
  have houter : outerAux ((clast :: (l₁ ++ l₂)).length) 0 (clast :: (l₁ ++ l₂))
      = some chain.reverse :=
    outerAux_of_chain chain hchain hnodup hroot chainInit [clast]
      (l₁ ++ l₂) ((clast :: (l₁ ++ l₂)).length) hsplit (by simp) hperm2 hfuel
  simp only [linearize]
  rw [hhp, houter]
  simp

/-! ## The walk never adds or drops records -/

/-- Putting the element read at index `i` back in front of the erasure is
a permutation. -/
theorem cons_eraseIdx_perm {α : Type} :
    ∀ (l : List α) (i : Nat) (x : α), l.get? i = some x →
      List.Perm (x :: l.eraseIdx i) l := by
  intro l
  induction l with
  | nil => intro i x h; cases h
  | cons y ys ih =>
    intro i x h
    cases i with
    | zero =>
      have hxy : y = x := by simpa using h
      subst hxy
      exact List.Perm.refl _
    | succ n =>
      exact List.Perm.trans (List.Perm.swap y x (ys.eraseIdx n)) ((ih n x h).cons y)

/-- `splice`-insertion is a permutation of consing. -/
theorem insertAt_perm {α : Type} (n : Nat) (a : α) (l : List α) :
    List.Perm (listInsertAt n a l) (a :: l) := by
  have h : List.Perm (l.take n ++ a :: l.drop n) (a :: (l.take n ++ l.drop n)) :=
    List.perm_middle
  rw [List.take_append_drop] at h
  exact h

/-- A `splice`-move permutes the list. -/
theorem jsMove_perm {α : Type} (l : List α) (i dest : Nat) :
    List.Perm (jsMove l i dest) l := by
  cases hg : l.get? i with
  | none =>
    have he : jsMove l i dest = l := by unfold jsMove; rw [hg]
    rw [he]
  | some x =>
    rw [jsMove_of_get? l i dest x hg]
    exact (insertAt_perm dest x (l.eraseIdx i)).trans (cons_eraseIdx_perm l i x hg)

/-- A head-pass step permutes the list. -/
theorem headPassStep_perm (h : String) (l : List Commit) (i : Nat) :
    List.Perm (headPassStep h l i) l := by
  cases hg : l.get? i with
  | none =>
    have he : headPassStep h l i = l := by unfold headPassStep; rw [hg]
    rw [he]
  | some c =>
    rw [headPassStep_of_get? h l i c hg]
    by_cases hc : c.sha = h
    · rw [if_pos hc]; exact jsMove_perm l i 0
    · rw [if_neg hc]

/-- The head pass permutes the list. -/
theorem headPassAux_perm (h : String) :
    ∀ (fuel i : Nat) (l : List Commit), List.Perm (headPassAux h fuel i l) l := by
  intro fuel
  induction fuel with
  | zero => intro i l; exact List.Perm.refl l
  | succ f ih =>
    intro i l
    rw [headPassAux]
    by_cases hc : i < l.length
    · rw [if_pos hc]
      exact (ih (i + 1) (headPassStep h l i)).trans (headPassStep_perm h l i)
    · rw [if_neg hc]

/-- A successful walk step permutes the list. -/
theorem walkStep_perm (l : List Commit) (j i : Nat) (l' : List Commit)
    (h : walkStep l j i = some l') : List.Perm l' l := by
  unfold walkStep at h
  split at h
  · exact Option.noConfusion h
  · split at h
    · exact Option.noConfusion h
    · split at h
      · rw [Option.some.injEq] at h
        subst h
        exact List.Perm.refl l
      · rw [Option.some.injEq] at h
        subst h
        split
        · exact jsMove_perm l i (j + 1)
        · exact List.Perm.refl l

/-- A completed inner scan permutes the list. -/
theorem innerAux_perm :
    ∀ (fuel j i : Nat) (l r : List Commit), innerAux fuel j i l = some r →
      List.Perm r l := by
  intro fuel
  induction fuel with
  | zero =>
    intro j i l r h
    rw [innerAux, Option.some.injEq] at h
    subst h
    exact List.Perm.refl l
  | succ f ih =>
    intro j i l r h
    rw [innerAux] at h
    split at h
    · split at h
      · exact Option.noConfusion h
      · rename_i l' heq
        exact (ih j (i + 1) l' r h).trans (walkStep_perm l j i l' heq)
    · rw [Option.some.injEq] at h
      subst h
      exact List.Perm.refl l

/-- A completed outer walk permutes the list. -/
theorem outerAux_perm :
    ∀ (fuel j : Nat) (l r : List Commit), outerAux fuel j l = some r →
      List.Perm r l := by
  intro fuel
  induction fuel with
  | zero =>
    intro j l r h
    rw [outerAux, Option.some.injEq] at h
    subst h
    exact List.Perm.refl l
  | succ f ih =>
    intro j l r h
    rw [outerAux] at h
    split at h
    · split at h
      · exact Option.noConfusion h
      · rename_i l' heq
        exact (ih (j + 1) l' r h).trans (innerAux_perm l.length j 0 l l' heq)
    · rw [Option.some.injEq] at h
      subst h
      exact List.Perm.refl l

/-- Whenever the reordering of `fetchCommitsDetails` returns normally,
its output is a permutation of its input: the splice moves never drop or
duplicate a record. -/
theorem linearize_perm_of_some (l : List Commit) (h : String) (r : List Commit)
    (hr : linearize l h = some r) : List.Perm r l := by
  simp only [linearize] at hr
  cases ho : outerAux (headPass h l).length 0 (headPass h l) with
  | none => rw [ho] at hr; cases hr
  | some res =>
    rw [ho] at hr
    have hr' : res.reverse = r := by simpa using hr
    subst hr'
    have h1 : List.Perm res.reverse res := res.reverse_perm
    have h2 : List.Perm res (headPass h l) :=
      outerAux_perm (headPass h l).length 0 (headPass h l) res ho
    have h3 : List.Perm (headPass h l) l := headPassAux_perm h l.length 0 l
    exact (h1.trans h2).trans h3

/-! ## Degenerate inputs: absent head, absent parents -/

/-- If no record carries the head sha, the head pass is a no-op. -/
theorem headPass_no_match (h : String) (l : List Commit)
    (hno : ∀ c ∈ l, c.sha ≠ h) : headPass h l = l := by
  unfold headPass
  exact headPassAux_no_match h l [] l.length le_rfl hno

/-- If every record's first parent sha resolves to no record of the list,
the whole walk is a no-op. -/
theorem outerAux_all_unresolved (l : List Commit)
    (hall : ∀ cj ∈ l, ∃ p, cj.parents.head? = some p ∧ ∀ x ∈ l, x.sha ≠ p) :
    ∀ (fuel j : Nat), outerAux fuel j l = some l := by
  intro fuel
  induction fuel with
  | zero => intro j; rfl
  | succ f ih =>
    intro j
    rw [outerAux]
    by_cases hj : j < l.length
    · rw [if_pos hj]
      obtain ⟨cj, hcj⟩ : ∃ cj, l.get? j = some cj := ⟨l.get ⟨j, hj⟩, List.get?_eq_get hj⟩
      obtain ⟨p, hp, hno⟩ := hall cj (List.get?_mem hcj)
      have hinner : innerAux l.length j 0 l = some l :=
        innerAux_no_match j cj p l [] l.length le_rfl hcj hp hno
      rw [hinner]
      exact ih (j + 1)
    · rw [if_neg hj]

/-- When the head sha matches no record and no parent sha resolves inside
the input, the source raises no error: it returns the input reversed. -/
theorem linearize_headless (l : List Commit) (headSha : String)
    (hnohead : ∀ c ∈ l, c.sha ≠ headSha)
    (hall : ∀ cj ∈ l, ∃ p, cj.parents.head? = some p ∧ ∀ x ∈ l, x.sha ≠ p) :
    linearize l headSha = some l.reverse := by
  simp only [linearize]
  rw [headPass_no_match headSha l hnohead, outerAux_all_unresolved l hall l.length 0]
  rfl

/-- An inner scan that immediately reads a record with no parents models
the thrown `TypeError`. -/
theorem innerAux_stuck (f j : Nat) (l : List Commit) (hlen : 0 < l.length)
    (hws : walkStep l j 0 = none) : innerAux (f + 1) j 0 l = none := by
  rw [innerAux, if_pos hlen, hws]

/-- An outer step whose inner scan threw propagates the `TypeError`. -/
theorem outerAux_stuck (f j : Nat) (l : List Commit) (hj : j < l.length)
    (hinner : innerAux l.length j 0 l = none) : outerAux (f + 1) j l = none := by
  rw [outerAux, if_pos hj, hinner]

/-- A singleton input whose record has an empty parents list makes the
walk read `parents[0].sha` of `undefined`: the reordering throws instead
of treating the record as a root. -/
theorem linearize_singleton_no_parents (c : Commit) (h : String)
    (hc : c.parents = []) : linearize [c] h = none := by
  have hhp : headPass h [c] = [c] := by
    by_cases hch : c.sha = h
    · have := headPassAux_found h c [] hch (by simp) [] [] 1 (by simp) (by simp)
      unfold headPass
      exact this
    · have := headPassAux_no_match h [c] [] 1 (by simp)
        (by intro x hx; simp at hx; subst hx; exact hch)
      unfold headPass
      exact this
  have hws : walkStep [c] 0 0 = none :=
    walkStep_of_no_parent [c] 0 0 c rfl (by rw [hc]; rfl)
  have h1 : innerAux ([c] : List Commit).length 0 0 [c] = none :=
    innerAux_stuck 0 0 [c] (by simp) hws
  have h2 : outerAux ([c] : List Commit).length 0 [c] = none :=
    outerAux_stuck 0 0 [c] (by simp) h1
  simp only [linearize]
  rw [hhp, h2]
  rfl

/-! ## Linearization claims: C1, C3, C4, C6, C7, C9, C10 -/

/-- C1: on any input that is a permutation of a duplicate-free connected
linear chain (each non-root record's first parent sha resolving to exactly
one other record, the root's parent sha resolving to no record) whose
newest record carries the supplied head sha, the reordering returns the
oldest-to-newest chain: a sequence of the input's length, consecutively
linked by `chain[i+1].parentSha = chain[i].sha`, ending in the head sha. -/
theorem c1_ordering_correctness (chain chainInit l : List Commit) (clast : Commit)
    (hsplit : chain = chainInit ++ [clast])
    (hchain : List.Chain' linkRel chain)
    (hnodup : (chain.map Commit.sha).Nodup)
    (hroot : rootUnresolvedB chain = true)
    (hperm : List.Perm l chain) :
    linearize l clast.sha = some chain ∧ chain.length = l.length ∧
      List.Chain' linkRel chain ∧ chain.getLast? = some clast :=
  ⟨linearize_of_chain chain chainInit l clast hsplit hchain hnodup hroot hperm,
   hperm.length_eq.symm, hchain,
   by rw [hsplit]; exact List.getLast?_concat chainInit⟩

/-- C1 witness: the spec's own example chain A ← B ← C, shuffled, head
sha `"C"`, comes back as `[A, B, C]`. -/
theorem c1_ordering_correctness_witness :
    linearize [⟨"B", ["A"], "", "", "", ""⟩, ⟨"C", ["B"], "", "", "", ""⟩,
        ⟨"A", ["z"], "", "", "", ""⟩] "C"
      = some [⟨"A", ["z"], "", "", "", ""⟩, ⟨"B", ["A"], "", "", "", ""⟩,
        ⟨"C", ["B"], "", "", "", ""⟩] :=
  (c1_ordering_correctness
    [⟨"A", ["z"], "", "", "", ""⟩, ⟨"B", ["A"], "", "", "", ""⟩, ⟨"C", ["B"], "", "", "", ""⟩]
    [⟨"A", ["z"], "", "", "", ""⟩, ⟨"B", ["A"], "", "", "", ""⟩]
    [⟨"B", ["A"], "", "", "", ""⟩, ⟨"C", ["B"], "", "", "", ""⟩, ⟨"A", ["z"], "", "", "", ""⟩]
    ⟨"C", ["B"], "", "", "", ""⟩
    (by decide) (by simp [List.chain'_cons, linkRel]) (by decide) (by decide)
    (by decide)).1

/-- C3 counterexample: with a head sha matching no record, the reordering
does not fail — it returns a sequence (no `HeadNotFoundError` exists in
the source). -/
theorem c3_counterexample :
    (∀ c ∈ [(⟨"a", ["p"], "", "", "", ""⟩ : Commit)], c.sha ≠ "h") ∧
    linearize [⟨"a", ["p"], "", "", "", ""⟩] "h" = some [⟨"a", ["p"], "", "", "", ""⟩] :=
  ⟨by decide, by decide⟩

/-- C3 amended: when the head sha matches no record, the head pass is a
no-op and no error is raised; in particular when additionally no parent
sha resolves inside the input, the input is returned reversed. -/
theorem c3_no_error_when_head_absent (l : List Commit) (headSha : String)
    (hnohead : ∀ c ∈ l, c.sha ≠ headSha)
    (hall : ∀ cj ∈ l, ∃ p, cj.parents.head? = some p ∧ ∀ x ∈ l, x.sha ≠ p) :
    linearize l headSha = some l.reverse :=
  linearize_headless l headSha hnohead hall

/-- C3 amended, witness: two mutually unrelated records, head sha absent:
the call returns the reversed input instead of failing. -/
theorem c3_no_error_when_head_absent_witness :
    linearize [⟨"a", ["p"], "", "", "", ""⟩, ⟨"b", ["q"], "", "", "", ""⟩] "h"
      = some [⟨"b", ["q"], "", "", "", ""⟩, ⟨"a", ["p"], "", "", "", ""⟩] :=
  c3_no_error_when_head_absent
    [⟨"a", ["p"], "", "", "", ""⟩, ⟨"b", ["q"], "", "", "", ""⟩] "h"
    (by decide)
    (by
      intro cj hcj
      simp only [List.mem_cons, List.not_mem_nil, or_false] at hcj
      rcases hcj with rfl | rfl
      · exact ⟨"p", rfl, by decide⟩
      · exact ⟨"q", rfl, by decide⟩)

/-- C4 counterexample: the record `"a"`, unreachable from head `"h"`, is
present in the result, whose length is 2, not the size 1 of the connected
component of the head. -/
theorem c4_counterexample :
    linearize [(⟨"h", ["x"], "", "", "", ""⟩ : Commit), ⟨"a", ["q"], "", "", "", ""⟩] "h"
      = some [⟨"a", ["q"], "", "", "", ""⟩, ⟨"h", ["x"], "", "", "", ""⟩] ∧
    (⟨"a", ["q"], "", "", "", ""⟩ : Commit) ∈
      [(⟨"a", ["q"], "", "", "", ""⟩ : Commit), ⟨"h", ["x"], "", "", "", ""⟩] :=
  ⟨by decide, by decide⟩

/-- C4 amended: records unreachable from the head are NOT dropped — every
input record appears in the output, and the output length equals the input
length regardless of connectivity. -/
theorem c4_leftovers_retained (l : List Commit) (h : String) (r : List Commit)
    (hr : linearize l h = some r) :
    (∀ c ∈ l, c ∈ r) ∧ r.length = l.length := by
  have hp := linearize_perm_of_some l h r hr
  exact ⟨fun c hc => hp.mem_iff.mpr hc, hp.length_eq⟩

/-- C4 amended, witness at the disconnected two-record input. -/
theorem c4_leftovers_retained_witness :
    (∀ c ∈ [(⟨"h", ["x"], "", "", "", ""⟩ : Commit), ⟨"a", ["q"], "", "", "", ""⟩],
      c ∈ [(⟨"a", ["q"], "", "", "", ""⟩ : Commit), ⟨"h", ["x"], "", "", "", ""⟩]) ∧
    ([(⟨"a", ["q"], "", "", "", ""⟩ : Commit), ⟨"h", ["x"], "", "", "", ""⟩]).length
      = ([(⟨"h", ["x"], "", "", "", ""⟩ : Commit), ⟨"a", ["q"], "", "", "", ""⟩]).length :=
  c4_leftovers_retained
    [⟨"h", ["x"], "", "", "", ""⟩, ⟨"a", ["q"], "", "", "", ""⟩] "h"
    [⟨"a", ["q"], "", "", "", ""⟩, ⟨"h", ["x"], "", "", "", ""⟩] (by decide)

/-- C6 counterexample: shuffling a disconnected input changes the output,
so the reordering is not order-independent on arbitrary inputs. -/
theorem c6_counterexample :
    List.Perm
      [(⟨"H", ["x"], "", "", "", ""⟩ : Commit), ⟨"A", ["p"], "", "", "", ""⟩,
        ⟨"B", ["q"], "", "", "", ""⟩]
      [⟨"H", ["x"], "", "", "", ""⟩, ⟨"B", ["q"], "", "", "", ""⟩,
        ⟨"A", ["p"], "", "", "", ""⟩] ∧
    linearize [⟨"H", ["x"], "", "", "", ""⟩, ⟨"A", ["p"], "", "", "", ""⟩,
        ⟨"B", ["q"], "", "", "", ""⟩] "H"
      ≠ linearize [⟨"H", ["x"], "", "", "", ""⟩, ⟨"B", ["q"], "", "", "", ""⟩,
        ⟨"A", ["p"], "", "", "", ""⟩] "H" :=
  ⟨by decide, by decide⟩

/-- C6 amended: order independence does hold on well-formed inputs — any
two permutations of the same duplicate-free connected linear chain give
the same output. -/
theorem c6_order_independence_on_chains (chain chainInit l₁ l₂ : List Commit)
    (clast : Commit)
    (hsplit : chain = chainInit ++ [clast])
    (hchain : List.Chain' linkRel chain)
    (hnodup : (chain.map Commit.sha).Nodup)
    (hroot : rootUnresolvedB chain = true)
    (hperm₁ : List.Perm l₁ chain) (hperm₂ : List.Perm l₂ chain) :
    linearize l₁ clast.sha = linearize l₂ clast.sha := by
  rw [linearize_of_chain chain chainInit l₁ clast hsplit hchain hnodup hroot hperm₁,
    linearize_of_chain chain chainInit l₂ clast hsplit hchain hnodup hroot hperm₂]

/-- C6 amended, witness: the two orderings of a two-commit chain agree. -/
theorem c6_order_independence_on_chains_witness :
    linearize [⟨"b", ["a"], "", "", "", ""⟩, ⟨"a", ["z"], "", "", "", ""⟩] "b"
      = linearize [⟨"a", ["z"], "", "", "", ""⟩, ⟨"b", ["a"], "", "", "", ""⟩] "b" :=
  c6_order_independence_on_chains
    [⟨"a", ["z"], "", "", "", ""⟩, ⟨"b", ["a"], "", "", "", ""⟩]
    [⟨"a", ["z"], "", "", "", ""⟩]
    [⟨"b", ["a"], "", "", "", ""⟩, ⟨"a", ["z"], "", "", "", ""⟩]
    [⟨"a", ["z"], "", "", "", ""⟩, ⟨"b", ["a"], "", "", "", ""⟩]
    ⟨"b", ["a"], "", "", "", ""⟩
    (by decide) (by simp [List.chain'_cons, linkRel]) (by decide) (by decide)
    (by decide) (by decide)

/-- C7: on a well-formed chain input whose root's parent sha resolves to
no input record, the walk terminates normally, the returned `chain[0]` is
that root, and its parent sha resolves to no record of the input. -/
theorem c7_root_detection (chain chainInit l : List Commit) (clast : Commit)
    (hsplit : chain = chainInit ++ [clast])
    (hchain : List.Chain' linkRel chain)
    (hnodup : (chain.map Commit.sha).Nodup)
    (hroot : rootUnresolvedB chain = true)
    (hperm : List.Perm l chain) :
    ∃ out root, linearize l clast.sha = some out ∧ out.head? = some root ∧
      ∃ p, root.parents.head? = some p ∧ p ∉ l.map Commit.sha := by
  obtain ⟨c, cr, hc⟩ : ∃ c cr, chain = c :: cr := by
    cases hchn : chain with
    | nil => rw [hchn] at hroot; simp [rootUnresolvedB] at hroot
    | cons c cr => exact ⟨c, cr, rfl⟩
  obtain ⟨p, hcp, hpnot⟩ : ∃ p, c.parents.head? = some p ∧ p ∉ chain.map Commit.sha := by
    cases hcp : c.parents.head? with
    | none => rw [hc] at hroot; simp [rootUnresolvedB, hcp] at hroot
    | some p =>
      rw [hc] at hroot
      simp only [rootUnresolvedB, hcp, decide_eq_true_eq] at hroot
      exact ⟨p, rfl, hc ▸ hroot⟩
  refine ⟨chain, c,
    linearize_of_chain chain chainInit l clast hsplit hchain hnodup hroot hperm,
    by rw [hc]; rfl, p, hcp, ?_⟩
  intro hmem
  exact hpnot ((hperm.map Commit.sha).mem_iff.mp hmem)

/-- C7 witness: on the chain r ← s with head `"s"`, the first returned
record is the root `"r"` and its parent sha `"out"` resolves nowhere. -/
theorem c7_root_detection_witness :
    ∃ out root,
      linearize [⟨"s", ["r"], "", "", "", ""⟩, ⟨"r", ["out"], "", "", "", ""⟩] "s"
        = some out ∧ out.head? = some root ∧
      ∃ p, root.parents.head? = some p ∧
        p ∉ ([⟨"s", ["r"], "", "", "", ""⟩,
          ⟨"r", ["out"], "", "", "", ""⟩] : List Commit).map Commit.sha :=
  c7_root_detection
    [⟨"r", ["out"], "", "", "", ""⟩, ⟨"s", ["r"], "", "", "", ""⟩]
    [⟨"r", ["out"], "", "", "", ""⟩]
    [⟨"s", ["r"], "", "", "", ""⟩, ⟨"r", ["out"], "", "", "", ""⟩]
    ⟨"s", ["r"], "", "", "", ""⟩
    (by decide) (by simp [List.chain'_cons, linkRel]) (by decide) (by decide)
    (by decide)

/-- C9 counterexample: a record with an empty parents list makes the walk
throw (`parents[0]` is `undefined`); the reordering does not complete. -/
theorem c9_counterexample :
    linearize [(⟨"a", [], "", "", "", ""⟩ : Commit)] "a" = none := by decide

/-- C9 amended: an input whose record has an empty parents list makes the
walk read `parents[0].sha` of `undefined`: the call fails with a
`TypeError` instead of treating the record as the chain's root. -/
theorem c9_empty_parents_throws (c : Commit) (h : String) (hc : c.parents = []) :
    linearize [c] h = none :=
  linearize_singleton_no_parents c h hc

/-- C9 amended, witness. -/
theorem c9_empty_parents_throws_witness :
    linearize [(⟨"root", [], "", "", "", ""⟩ : Commit)] "zzz" = none :=
  c9_empty_parents_throws ⟨"root", [], "", "", "", ""⟩ "zzz" rfl

/-- C10: whenever the reordering returns normally, the output is a
permutation of the input — every record exactly once, none introduced, so
the output length always equals the input length. -/
theorem c10_output_is_permutation (l : List Commit) (h : String) (r : List Commit)
    (hr : linearize l h = some r) :
    List.Perm r l ∧ r.length = l.length := by
  have hp := linearize_perm_of_some l h r hr
  exact ⟨hp, hp.length_eq⟩

/-- C10 witness: a two-commit chain whose output reorders the input. -/
theorem c10_output_is_permutation_witness :
    List.Perm [(⟨"c1", ["c0"], "", "", "", ""⟩ : Commit), ⟨"c2", ["c1"], "", "", "", ""⟩]
      [⟨"c2", ["c1"], "", "", "", ""⟩, ⟨"c1", ["c0"], "", "", "", ""⟩] ∧
    ([(⟨"c1", ["c0"], "", "", "", ""⟩ : Commit), ⟨"c2", ["c1"], "", "", "", ""⟩]).length
      = ([(⟨"c2", ["c1"], "", "", "", ""⟩ : Commit), ⟨"c1", ["c0"], "", "", "", ""⟩]).length :=
  c10_output_is_permutation
    [⟨"c2", ["c1"], "", "", "", ""⟩, ⟨"c1", ["c0"], "", "", "", ""⟩] "c2"
    [⟨"c1", ["c0"], "", "", "", ""⟩, ⟨"c2", ["c1"], "", "", "", ""⟩] (by decide)

end SGI
